import Mathlib

/-!
Verification of the closed Knight's Tour solvers of this repository.

The two Python modules `knightsTourBacktracking.py` and `knights_tour.py` are
shallowly embedded below.  Boards are lists of rows of naturals (`0` means
unvisited, `k > 0` means the cell was the `k`-th square of the tour), positions
are pairs of integers, and the in-place board mutation of the Python code is
threaded explicitly through the recursion.  Python's stable `list.sort(key=...)`
is embedded as `List.insertionSort` on the key order, which agrees with every
stable sort by key.  The process-global random generator consumed by
`random.choice` in the Las Vegas solver is modelled as an explicit list of draw
values threaded through the call: each draw picks the candidate at index
`value % candidates.length`, and the unconsumed remainder of the list is
returned together with the result.
-/

/-- Positions are `(row, col)` pairs of integers, as in the Python sources
(which accept arbitrary integers and validate bounds explicitly). -/
abbrev Pos := Int × Int

/-- A board is a list of rows of move numbers, `0` meaning unvisited. -/
abbrev Board := List (List Nat)

/-- Board dimension, `BOARD_SIZE = 8` in both Python modules. -/
def BOARD_SIZE : Nat := 8

/-- The eight knight displacement offsets, in the exact order of the
`KNIGHT_MOVES` table shared by both Python modules. -/
def KNIGHT_MOVES : List (Int × Int) :=
  [(2, 1), (1, 2), (-1, 2), (-2, 1), (-2, -1), (-1, -2), (1, -2), (2, -1)]

/-- Embeds `create_empty_board` / the list-comprehension empty board: an
8×8 grid of zeros. -/
def createEmptyBoard : Board :=
  List.replicate BOARD_SIZE (List.replicate BOARD_SIZE 0)

/-- Position `p` lies on the 8×8 grid: both coordinates in `[0, 8)`. -/
abbrev inB (p : Pos) : Prop :=
  0 ≤ p.1 ∧ p.1 < 8 ∧ 0 ≤ p.2 ∧ p.2 < 8

/-- Reads `board[row][col]`.  All reads performed by the Python code are
guarded by a bounds check, so the out-of-range default `0` is never observed
by the embedded program. -/
def getCell (b : Board) (p : Pos) : Nat :=
  (b.getD p.1.toNat []).getD p.2.toNat 0

/-- Writes `board[row][col] = v`.  All writes performed by the Python code
are at validated in-bounds positions. -/
def setCell (b : Board) (p : Pos) (v : Nat) : Board :=
  b.set p.1.toNat ((b.getD p.1.toNat []).set p.2.toNat v)

/-- Embeds `is_valid_move` (and the identical `is_valid` of the second
module): the target is on the board and unvisited. -/
def is_valid (r c : Int) (b : Board) : Bool :=
  decide (0 ≤ r) && decide (r < 8) && decide (0 ≤ c) && decide (c < 8) &&
    (getCell b (r, c) == 0)

/-- Embeds `get_valid_moves` (and the inline candidate loop of the second
module): the knight-move targets of `(r, c)` that are valid, in the
enumeration order of `KNIGHT_MOVES`. -/
def get_valid_moves (r c : Int) (b : Board) : List Pos :=
  (KNIGHT_MOVES.map (fun d => (r + d.1, c + d.2))).filter
    (fun p => is_valid p.1 p.2 b)

/-- Embeds `is_closed_tour`: some knight offset carries `cur` onto `start`.
The board is not consulted. -/
def is_closed_tour (start cur : Pos) : Bool :=
  KNIGHT_MOVES.any (fun d => (cur.1 + d.1 == start.1) && (cur.2 + d.2 == start.2))

/-- Embeds `can_return_to_start` of `knights_tour.py`; note the flipped
argument order relative to `is_closed_tour`. -/
def can_return_to_start (cur start : Pos) : Bool :=
  KNIGHT_MOVES.any (fun d => (cur.1 + d.1 == start.1) && (cur.2 + d.2 == start.2))

/-- Embeds `count_moves` of `knights_tour.py`: the number of valid onward
moves from `(r, c)`, used as the Warnsdorff sort key there. -/
def count_moves (r c : Int) (b : Board) : Nat :=
  KNIGHT_MOVES.countP (fun d => is_valid (r + d.1) (c + d.2) b)

/-- Warnsdorff sort key of `knightsTourBacktracking.py`:
`len(get_valid_moves(pos[0], pos[1], board))`. -/
def warnKey (b : Board) (p : Pos) : Nat :=
  (get_valid_moves p.1 p.2 b).length

/-- Embeds the `valid_moves.sort(key=...)` call of
`knightsTourBacktracking.py`.  Python's sort is stable, and a stable sort by
key has a unique result, so insertion sort on the key order is a faithful
embedding. -/
def sortMoves (b : Board) (l : List Pos) : List Pos :=
  List.insertionSort (fun p q => warnKey b p ≤ warnKey b q) l

/-- Embeds the sort of `knights_tour.py`, whose key is `count_moves`. -/
def sortMoves2 (b : Board) (l : List Pos) : List Pos :=
  List.insertionSort (fun p q => count_moves p.1 p.2 b ≤ count_moves q.1 q.2 b) l

/-- The `for next_row, next_col in valid_moves:` loop of both backtracking
functions: try each candidate with `f`, short-circuit on the first success,
thread the board through failures. -/
def tryMoves (f : Board → Pos → Bool × Board) : List Pos → Board → Bool × Board
  | [], b => (false, b)
  | m :: ms, b =>
    match f b m with
    | (true, b2) => (true, b2)
    | (false, b2) => tryMoves f ms b2

/-- Embeds the inner recursive `backtrack` of `KnightsTourBacktracking`.
The fuel argument only bounds the recursion depth; `fuel ≥ 65 - move_count`
makes it unreachable, and the top-level call passes `fuel = 64`. -/
def backtrack (start : Pos) : Nat → Board → Pos → Nat → Bool × Board
  | 0, b, _, _ => (false, b)
  | fuel + 1, b, pos, mc =>
    if mc = BOARD_SIZE * BOARD_SIZE then
      if is_closed_tour start pos then (true, setCell b pos mc)
      else (false, setCell (setCell b pos mc) pos 0)
    else
      match tryMoves (fun b2 m => backtrack start fuel b2 m (mc + 1))
          (sortMoves (setCell b pos mc)
            (get_valid_moves pos.1 pos.2 (setCell b pos mc)))
          (setCell b pos mc) with
      | (true, b2) => (true, b2)
      | (false, b2) => (false, setCell b2 pos 0)

/-- Embeds `KnightsTourBacktracking` of `knightsTourBacktracking.py`. -/
def KnightsTourBacktracking (start : Pos) : Bool × Board :=
  if inB start then
    backtrack start (BOARD_SIZE * BOARD_SIZE) createEmptyBoard start 1
  else
    (false, createEmptyBoard)

/-- Embeds the inner recursive `backtrack` of `knights_tour.py`.  It differs
from the first module only in using `count_moves` as the sort key and
`can_return_to_start` (with flipped arguments) as the closure check. -/
def backtrack2 (start : Pos) : Nat → Board → Pos → Nat → Bool × Board
  | 0, b, _, _ => (false, b)
  | fuel + 1, b, pos, mc =>
    if mc = BOARD_SIZE * BOARD_SIZE then
      if can_return_to_start pos start then (true, setCell b pos mc)
      else (false, setCell (setCell b pos mc) pos 0)
    else
      match tryMoves (fun b2 m => backtrack2 start fuel b2 m (mc + 1))
          (sortMoves2 (setCell b pos mc)
            (get_valid_moves pos.1 pos.2 (setCell b pos mc)))
          (setCell b pos mc) with
      | (true, b2) => (true, b2)
      | (false, b2) => (false, setCell b2 pos 0)

/-- Embeds `knights_tour` of `knights_tour.py`. -/
def knights_tour (startRow startCol : Int) : Bool × Board :=
  if inB (startRow, startCol) then
    backtrack2 (startRow, startCol) (BOARD_SIZE * BOARD_SIZE) createEmptyBoard
      (startRow, startCol) 1
  else
    (false, createEmptyBoard)

/-- Embeds the `while move_count < 64` loop of `KnightsTourLasVegas`.  The
list `s` models the stream of values drawn from the global random generator:
a draw picks the candidate at index `head % length` and the loop continues on
the tail (an exhausted list keeps drawing `0`).  The unconsumed remainder is
returned, modelling the generator state left for the next caller.  The fuel
only bounds the iteration count; the top-level call passes `64 ≥ 1 + 63`. -/
def lvLoop (start : Pos) : Nat → List Nat → Board → Pos → Nat → (Bool × Board) × List Nat
  | 0, s, b, _, _ => ((false, b), s)
  | fuel + 1, s, b, cur, mc =>
    if mc < BOARD_SIZE * BOARD_SIZE then
      if (get_valid_moves cur.1 cur.2 b).length = 0 then ((false, b), s)
      else
        lvLoop start fuel s.tail
          (setCell b
            ((get_valid_moves cur.1 cur.2 b).getD
              (s.headD 0 % (get_valid_moves cur.1 cur.2 b).length) (0, 0))
            (mc + 1))
          ((get_valid_moves cur.1 cur.2 b).getD
            (s.headD 0 % (get_valid_moves cur.1 cur.2 b).length) (0, 0))
          (mc + 1)
    else ((is_closed_tour start cur, b), s)

/-- Embeds `KnightsTourLasVegas` of `knightsTourBacktracking.py`, with the
global random generator modelled as the explicit draw list `s`. -/
def KnightsTourLasVegas (start : Pos) (s : List Nat) : (Bool × Board) × List Nat :=
  if inB start then
    lvLoop start (BOARD_SIZE * BOARD_SIZE) s (setCell createEmptyBoard start 1) start 1
  else
    ((false, createEmptyBoard), s)

/-- Knight adjacency as a relation on positions: some offset carries `p`
onto `q`.  `is_closed_tour start cur` is literally `adjB cur start`. -/
def adjB (p q : Pos) : Bool :=
  KNIGHT_MOVES.any (fun d => (p.1 + d.1 == q.1) && (p.2 + d.2 == q.2))

/-- Marks the positions of `l` with consecutive move numbers starting at
`k`, in order; this is the shape every board reached by either solver has. -/
def markPath : Board → List Pos → Nat → Board
  | b, [], _ => b
  | b, p :: ps, k => markPath (setCell b p k) ps (k + 1)

/-- Well-formed board: 8 rows of 8 cells. -/
def WF (b : Board) : Prop :=
  b.length = 8 ∧ ∀ row ∈ b, row.length = 8

/-- Number of visited (nonzero) cells of the board. -/
def filled (b : Board) : Nat :=
  (b.map (fun row => row.countP (fun v => !(v == 0)))).sum

/-- Every cell of the board is visited (nonzero). -/
def allVisitedB (b : Board) : Bool :=
  b.all (fun row => row.all (fun v => !(v == 0)))

/-- States reached by the backtracking search: the board, current square and
move count at entry of each recursive `backtrack` call, after the call has
marked its square.  `step` follows one candidate of the sorted candidate
list of such a state. -/
inductive BTReach (start : Pos) : Board → Pos → Nat → Prop
  | init : inB start → BTReach start (setCell createEmptyBoard start 1) start 1
  | step {b pos mc m} : BTReach start b pos mc → mc < BOARD_SIZE * BOARD_SIZE →
      m ∈ sortMoves b (get_valid_moves pos.1 pos.2 b) →
      BTReach start (setCell b m (mc + 1)) m (mc + 1)

/-- States reached by the Las Vegas walk: the board, current square and move
count at the head of each loop iteration, for every possible random choice. -/
inductive LVReach (start : Pos) : Board → Pos → Nat → Prop
  | init : inB start → LVReach start (setCell createEmptyBoard start 1) start 1
  | step {b cur mc m} : LVReach start b cur mc → mc < BOARD_SIZE * BOARD_SIZE →
      m ∈ get_valid_moves cur.1 cur.2 b →
      LVReach start (setCell b m (mc + 1)) m (mc + 1)

/-- The path invariant of §3 of the specification, as a predicate on a search
state: the visited cells carry the values `1..mc` along a single self-avoiding
in-bounds knight path that starts at the start square and ends at the current
square, and no cell value is duplicated. -/
def StateInv (start : Pos) (b : Board) (cur : Pos) (mc : Nat) : Prop :=
  ∃ l : List Pos,
    l.head? = some start ∧
    List.Chain' (fun p q => adjB p q = true) l ∧
    l.Nodup ∧
    (∀ p ∈ l, inB p) ∧
    l.getLast? = some cur ∧
    l.length = mc ∧
    b = markPath createEmptyBoard l 1 ∧
    (∀ i (h : i < l.length), getCell b (l.get ⟨i, h⟩) = i + 1) ∧
    (∀ p, inB p → 1 ≤ getCell b p → getCell b p ≤ mc → p ∈ l)

/-- The board computed by `KnightsTourBacktracking` from `(0, 0)`, spelled
out so that single evaluations of the search can be shared. -/
def tourBoard : Board :=
  [[1, 34, 3, 18, 49, 32, 13, 16],
   [4, 19, 64, 33, 14, 17, 50, 31],
   [63, 2, 35, 48, 55, 52, 15, 12],
   [20, 5, 56, 53, 36, 47, 30, 51],
   [41, 62, 37, 46, 57, 54, 11, 26],
   [6, 21, 42, 61, 38, 27, 58, 29],
   [43, 40, 23, 8, 45, 60, 25, 10],
   [22, 7, 44, 39, 24, 9, 28, 59]]

/-- A board with a single unvisited cell at `(0, 0)`, a concrete state from
which a `backtrack` call fails and must roll back its mark. -/
def nearFullBoard : Board :=
  [[0, 1, 1, 1, 1, 1, 1, 1],
   [1, 1, 1, 1, 1, 1, 1, 1],
   [1, 1, 1, 1, 1, 1, 1, 1],
   [1, 1, 1, 1, 1, 1, 1, 1],
   [1, 1, 1, 1, 1, 1, 1, 1],
   [1, 1, 1, 1, 1, 1, 1, 1],
   [1, 1, 1, 1, 1, 1, 1, 1],
   [1, 1, 1, 1, 1, 1, 1, 1]]

/-- Core invariant carried by both solvers' searches: the board is exactly a
marked self-avoiding in-bounds knight path of length `mc` from `start` to
`cur`. -/
def PathState (start : Pos) (b : Board) (cur : Pos) (mc : Nat) : Prop :=
  ∃ l : List Pos,
    l.head? = some start ∧
    List.Chain' (fun p q => adjB p q = true) l ∧
    l.Nodup ∧
    (∀ p ∈ l, inB p) ∧
    l.getLast? = some cur ∧
    l.length = mc ∧
    b = markPath createEmptyBoard l 1

/-- Shape of the board returned by a successful `backtrack` call entered at
`(pos, mc)` on board `b`: the call appended a knight path of fresh in-bounds
cells carrying the values `mc..64`, whose last square closes the tour. -/
def GoodPath (start : Pos) (b : Board) (pos : Pos) (mc : Nat) (b' : Board)
    (l : List Pos) : Prop :=
  l.head? = some pos ∧
  List.Chain' (fun p q => adjB p q = true) l ∧
  l.Nodup ∧
  (∀ q ∈ l, inB q) ∧
  (∀ q ∈ l, getCell b q = 0) ∧
  l.length = 65 - mc ∧
  (∃ lastp, l.getLast? = some lastp ∧ is_closed_tour start lastp = true) ∧
  b' = markPath b l mc

lemma list_set_self {α : Type _} : ∀ (l : List α) (i : Nat) (h : i < l.length),
    l.set i (l.get ⟨i, h⟩) = l
  | _ :: _, 0, _ => rfl
  | a :: l, i + 1, h => by
    simpa [List.set] using list_set_self l i (by simpa using h)

lemma list_set_of_le {α : Type _} : ∀ (l : List α) (i : Nat), l.length ≤ i →
    ∀ a, l.set i a = l
  | [], _, _, _ => rfl
  | x :: l, i + 1, h, a => by
    simpa [List.set] using list_set_of_le l i (by simpa using h) a

lemma WF_empty : WF createEmptyBoard := by
  constructor
  · simp [createEmptyBoard, BOARD_SIZE]
  · intro row hrow
    simp only [createEmptyBoard, BOARD_SIZE, List.mem_replicate] at hrow
    simp [hrow.2]

lemma row_length {b : Board} (hb : WF b) {i : Nat} (hi : i < b.length) :
    (b[i]).length = 8 :=
  hb.2 _ (List.getElem_mem hi)

lemma inB_row_lt {p : Pos} (hp : inB p) : p.1.toNat < 8 := by
  obtain ⟨h1, h2, _, _⟩ := hp; omega

lemma inB_col_lt {p : Pos} (hp : inB p) : p.2.toNat < 8 := by
  obtain ⟨_, _, h3, h4⟩ := hp; omega

lemma getCell_empty (p : Pos) : getCell createEmptyBoard p = 0 := by
  unfold getCell createEmptyBoard BOARD_SIZE
  simp only [List.getD_eq_getElem?_getD, List.getElem?_replicate]
  by_cases h : p.1.toNat < 8
  · simp only [h, if_true, Option.getD_some, List.getElem?_replicate]
    by_cases h2 : p.2.toNat < 8 <;> simp [h2]
  · simp [h]

lemma WF_setCell {b : Board} (hb : WF b) (p : Pos) (v : Nat) :
    WF (setCell b p v) := by
  by_cases hi : p.1.toNat < b.length
  · refine ⟨by simp [setCell, hb.1], ?_⟩
    intro row hrow
    rcases List.mem_or_eq_of_mem_set hrow with h | h
    · exact hb.2 _ h
    · subst h
      rw [List.length_set]
      rw [List.getD_eq_getElem?_getD, List.getElem?_eq_getElem hi]
      exact hb.2 _ (List.getElem_mem hi)
  · unfold setCell
    rw [list_set_of_le b p.1.toNat (by omega)]
    exact hb

lemma getCell_setCell_same {b : Board} (hb : WF b) {p : Pos} (hp : inB p) (v : Nat) :
    getCell (setCell b p v) p = v := by
  have hi : p.1.toNat < b.length := by rw [hb.1]; exact inB_row_lt hp
  have hj : p.2.toNat < (b[p.1.toNat]).length := by
    rw [row_length hb hi]; exact inB_col_lt hp
  simp only [getCell, setCell, List.getD_eq_getElem?_getD,
    List.getElem?_eq_getElem hi, Option.getD_some]
  rw [List.getElem?_set_self (by simpa using hi)]
  simp only [Option.getD_some]
  rw [List.getElem?_set_self (by simpa using hj)]
  rfl

lemma getCell_setCell_ne {b : Board} (hb : WF b) {p q : Pos} (hp : inB p)
    (hq : inB q) (hne : p ≠ q) (v : Nat) :
    getCell (setCell b p v) q = getCell b q := by
  have hi : p.1.toNat < b.length := by rw [hb.1]; exact inB_row_lt hp
  by_cases hr : p.1.toNat = q.1.toNat
  · have hrow : p.1 = q.1 := by
      have := hp.1; have := hq.1; omega
    have hc : p.2.toNat ≠ q.2.toNat := by
      have hcol : p.2 ≠ q.2 := by
        intro h; exact hne (Prod.ext hrow h)
      have := hp.2.2.1; have := hq.2.2.1; omega
    simp only [getCell, setCell, List.getD_eq_getElem?_getD, ← hr,
      List.getElem?_eq_getElem hi, Option.getD_some]
    rw [List.getElem?_set_self (by simpa using hi)]
    simp only [Option.getD_some]
    rw [List.getElem?_set_ne hc]
  · simp only [getCell, setCell, List.getD_eq_getElem?_getD]
    rw [List.getElem?_set_ne hr]

lemma setCell_setCell {b : Board} (hb : WF b) {p : Pos} (hp : inB p) (v w : Nat) :
    setCell (setCell b p v) p w = setCell b p w := by
  have hi : p.1.toNat < b.length := by rw [hb.1]; exact inB_row_lt hp
  simp only [setCell, List.getD_eq_getElem?_getD]
  rw [List.getElem?_set_self (by simpa using hi)]
  simp only [Option.getD_some]
  rw [List.set_set, List.set_set]

lemma setCell_zero_eq_self {b : Board} (hb : WF b) {p : Pos} (hp : inB p)
    (h0 : getCell b p = 0) : setCell b p 0 = b := by
  have hi : p.1.toNat < b.length := by rw [hb.1]; exact inB_row_lt hp
  have hj : p.2.toNat < (b[p.1.toNat]).length := by
    rw [row_length hb hi]; exact inB_col_lt hp
  have hval : (b[p.1.toNat])[p.2.toNat] = 0 := by
    have h0' := h0
    simp only [getCell, List.getD_eq_getElem?_getD, List.getElem?_eq_getElem hi,
      Option.getD_some] at h0'
    rw [List.getElem?_eq_getElem hj, Option.getD_some] at h0'
    exact h0'
  unfold setCell
  rw [List.getD_eq_getElem?_getD, List.getElem?_eq_getElem hi, Option.getD_some]
  calc b.set p.1.toNat ((b[p.1.toNat]).set p.2.toNat 0)
      = b.set p.1.toNat (b[p.1.toNat]) := by
        have hset := list_set_self (b[p.1.toNat]) p.2.toNat hj
        simp only [List.get_eq_getElem] at hset
        rw [hval] at hset
        rw [hset]
    _ = b := by
        have := list_set_self b p.1.toNat hi
        simpa using this

lemma countP_set_of_zero : ∀ (l : List Nat) (j : Nat), j < l.length →
    l.getD j 0 = 0 → ∀ v : Nat, v ≠ 0 →
    (l.set j v).countP (fun x => !(x == 0)) = l.countP (fun x => !(x == 0)) + 1
  | a :: l, 0, _, h0, v, hv => by
    simp only [List.getD_cons_zero] at h0
    subst h0
    simp [List.countP_cons, hv]
  | a :: l, j + 1, h, h0, v, hv => by
    simp only [List.getD_cons_succ] at h0
    have ih := countP_set_of_zero l j (by simpa using h) h0 v hv
    simp only [List.set_cons_succ, List.countP_cons, ih]
    omega

lemma sum_map_set {α : Type _} (f : α → Nat) : ∀ (l : List α) (i : Nat) (x : α)
    (h : i < l.length),
    ((l.set i x).map f).sum + f (l[i]) = (l.map f).sum + f x
  | a :: l, 0, x, _ => by simp [Nat.add_comm, Nat.add_left_comm]
  | a :: l, i + 1, x, h => by
    have ih := sum_map_set f l i x (by simpa using h)
    simp only [List.set_cons_succ, List.map_cons, List.sum_cons,
      List.getElem_cons_succ]
    omega

lemma filled_setCell {b : Board} (hb : WF b) {p : Pos} (hp : inB p)
    (h0 : getCell b p = 0) {v : Nat} (hv : v ≠ 0) :
    filled (setCell b p v) = filled b + 1 := by
  have hi : p.1.toNat < b.length := by rw [hb.1]; exact inB_row_lt hp
  have hj : p.2.toNat < (b[p.1.toNat]).length := by
    rw [row_length hb hi]; exact inB_col_lt hp
  have hrow0 : (b[p.1.toNat]).getD p.2.toNat 0 = 0 := by
    have h0' := h0
    simp only [getCell, List.getD_eq_getElem?_getD, List.getElem?_eq_getElem hi,
      Option.getD_some] at h0'
    rw [List.getD_eq_getElem?_getD]
    exact h0'
  have hrowD : b.getD p.1.toNat [] = b[p.1.toNat] := by
    rw [List.getD_eq_getElem?_getD, List.getElem?_eq_getElem hi, Option.getD_some]
  have key := sum_map_set (fun row => row.countP (fun x => !(x == 0))) b
    p.1.toNat ((b[p.1.toNat]).set p.2.toNat v) hi
  have hcount := countP_set_of_zero (b[p.1.toNat]) p.2.toNat hj hrow0 v hv
  unfold filled setCell
  rw [hrowD]
  simp only at key hcount ⊢
  omega

lemma allVisitedB_iff {b : Board} (hb : WF b) :
    allVisitedB b = true ↔ ∀ p : Pos, inB p → getCell b p ≠ 0 := by
  unfold allVisitedB
  rw [List.all_eq_true]
  constructor
  · intro h p hp
    have hi : p.1.toNat < b.length := by rw [hb.1]; exact inB_row_lt hp
    have hj : p.2.toNat < (b[p.1.toNat]).length := by
      rw [row_length hb hi]; exact inB_col_lt hp
    have hrow := h _ (List.getElem_mem hi)
    rw [List.all_eq_true] at hrow
    have hcell := hrow _ (List.getElem_mem hj)
    simp only [getCell, List.getD_eq_getElem?_getD, List.getElem?_eq_getElem hi,
      Option.getD_some]
    rw [List.getElem?_eq_getElem hj, Option.getD_some]
    simpa using hcell
  · intro h row hrow
    rw [List.all_eq_true]
    intro v hv
    rcases List.mem_iff_getElem.1 hrow with ⟨i, hi, rfl⟩
    rcases List.mem_iff_getElem.1 hv with ⟨j, hj, rfl⟩
    have hi8 : i < 8 := by rw [← hb.1]; exact hi
    have hj8 : j < 8 := by rw [← row_length hb hi]; exact hj
    have hp : inB ((i : Int), (j : Int)) := by
      refine ⟨by positivity, ?_, by positivity, ?_⟩ <;> exact_mod_cast by omega
    have hcell := h _ hp
    simp only [getCell, Int.toNat_natCast, List.getD_eq_getElem?_getD,
      List.getElem?_eq_getElem hi, Option.getD_some] at hcell
    rw [List.getElem?_eq_getElem hj, Option.getD_some] at hcell
    simpa using hcell

lemma all_eq_of_sum_eq : ∀ (ns : List Nat) (k : Nat), (∀ n ∈ ns, n ≤ k) →
    ns.sum = ns.length * k → ∀ n ∈ ns, n = k
  | [], _, _, _ => by simp
  | a :: ns, k, hle, hsum => by
    have hsle : ns.sum ≤ ns.length * k := by
      have := List.sum_le_card_nsmul ns k (fun x hx => hle x (List.mem_cons_of_mem _ hx))
      simpa [smul_eq_mul] using this
    have ha : a ≤ k := hle a (List.mem_cons_self _ _)
    simp only [List.sum_cons, List.length_cons] at hsum
    have hak : a = k := by nlinarith [hsum, hsle, ha]
    intro n hn
    rcases List.mem_cons.1 hn with rfl | hn
    · exact hak
    · refine all_eq_of_sum_eq ns k (fun x hx => hle x (List.mem_cons_of_mem _ hx))
        ?_ n hn
      have hm : (ns.length + 1) * k = ns.length * k + k := by ring
      omega

lemma allVisited_of_filled {b : Board} (hb : WF b) (h : filled b = 64) :
    allVisitedB b = true := by
  unfold allVisitedB
  rw [List.all_eq_true]
  intro row hrow
  have hall : ∀ n ∈ b.map (fun row => row.countP (fun x => !(x == 0))), n = 8 := by
    refine all_eq_of_sum_eq _ 8 ?_ ?_
    · intro n hn
      rcases List.mem_map.1 hn with ⟨r, hr, rfl⟩
      calc r.countP (fun x => !(x == 0)) ≤ r.length := List.countP_le_length _
        _ = 8 := hb.2 _ hr
    · rw [List.length_map, hb.1]
      exact h
  have hcount : row.countP (fun x => !(x == 0)) = row.length := by
    rw [hb.2 _ hrow]
    exact hall _ (List.mem_map_of_mem _ hrow)
  rw [List.countP_eq_length] at hcount
  rw [List.all_eq_true]
  exact hcount

lemma WF_markPath : ∀ (l : List Pos) (b : Board) (k : Nat), WF b →
    WF (markPath b l k)
  | [], _, _, hb => hb
  | p :: ps, _, k, hb => WF_markPath ps _ _ (WF_setCell hb p k)

lemma getCell_markPath_notMem : ∀ (l : List Pos) (b : Board) (k : Nat), WF b →
    (∀ q ∈ l, inB q) → ∀ {p : Pos}, inB p → p ∉ l →
    getCell (markPath b l k) p = getCell b p
  | [], _, _, _, _, _, _, _ => rfl
  | q :: ps, b, k, hb, hin, p, hp, hnm => by
    have hq : inB q := hin q (List.mem_cons_self _ _)
    have h1 := getCell_markPath_notMem ps (setCell b q k) (k + 1)
      (WF_setCell hb q k) (fun x hx => hin x (List.mem_cons_of_mem _ hx)) hp
      (fun hc => hnm (List.mem_cons_of_mem _ hc))
    have h2 := getCell_setCell_ne hb hq hp
      (fun hc => hnm (hc ▸ List.mem_cons_self _ _)) k
    simp only [markPath]
    rw [h1, h2]

lemma getCell_markPath_mem : ∀ (l : List Pos) (b : Board) (k : Nat), WF b →
    l.Nodup → (∀ q ∈ l, inB q) → ∀ (i : Nat) (h : i < l.length),
    getCell (markPath b l k) (l[i]) = k + i
  | p :: ps, b, k, hb, hnd, hin, 0, _ => by
    have hp : inB p := hin p (List.mem_cons_self _ _)
    simp only [markPath, List.getElem_cons_zero]
    rw [getCell_markPath_notMem ps (setCell b p k) (k + 1)
      (WF_setCell hb p k) (fun x hx => hin x (List.mem_cons_of_mem _ hx)) hp
      ((List.nodup_cons.1 hnd).1)]
    rw [getCell_setCell_same hb hp k]
    omega
  | p :: ps, b, k, hb, hnd, hin, i + 1, h => by
    simp only [markPath, List.getElem_cons_succ]
    rw [getCell_markPath_mem ps (setCell b p k) (k + 1) (WF_setCell hb p k)
      (List.Nodup.of_cons hnd) (fun x hx => hin x (List.mem_cons_of_mem _ hx))
      i (by simpa using h)]
    omega

lemma markPath_append : ∀ (l : List Pos) (b : Board) (m : Pos) (k : Nat),
    markPath b (l ++ [m]) k = setCell (markPath b l k) m (k + l.length)
  | [], b, m, k => by simp [markPath]
  | p :: ps, b, m, k => by
    show markPath (setCell b p k) (ps ++ [m]) (k + 1) =
      setCell (markPath (setCell b p k) ps (k + 1)) m (k + (p :: ps).length)
    have hlen : k + (p :: ps).length = (k + 1) + ps.length := by
      simp [List.length_cons]
      omega
    rw [hlen]
    exact markPath_append ps (setCell b p k) m (k + 1)

lemma filled_markPath : ∀ (l : List Pos) (b : Board) (k : Nat), WF b →
    l.Nodup → (∀ q ∈ l, inB q) → (∀ q ∈ l, getCell b q = 0) → 1 ≤ k →
    filled (markPath b l k) = filled b + l.length
  | [], _, _, _, _, _, _, _ => by simp [markPath]
  | p :: ps, b, k, hb, hnd, hin, hz, hk => by
    have hp : inB p := hin p (List.mem_cons_self _ _)
    have hz0 : getCell b p = 0 := hz p (List.mem_cons_self _ _)
    simp only [markPath]
    rw [filled_markPath ps (setCell b p k) (k + 1) (WF_setCell hb p k)
      (List.Nodup.of_cons hnd) (fun x hx => hin x (List.mem_cons_of_mem _ hx))
      ?_ (by omega)]
    · rw [filled_setCell hb hp hz0 (by omega)]
      simp [List.length_cons]
      omega
    · intro q hq
      rw [getCell_setCell_ne hb hp (hin q (List.mem_cons_of_mem _ hq))
        ?_ k]
      · exact hz q (List.mem_cons_of_mem _ hq)
      · intro hc
        exact ((List.nodup_cons.1 hnd).1) (hc ▸ hq)

lemma value_cell_of_markPath {l : List Pos} (hnd : l.Nodup)
    (hin : ∀ q ∈ l, inB q) {p : Pos} (hp : inB p) {v : Nat}
    (hv : getCell (markPath createEmptyBoard l 1) p = v) (h1 : 1 ≤ v) :
    ∃ i, ∃ h : i < l.length, l[i] = p ∧ v = i + 1 := by
  by_cases hmem : p ∈ l
  · rcases List.mem_iff_getElem.1 hmem with ⟨i, hi, rfl⟩
    refine ⟨i, hi, rfl, ?_⟩
    rw [getCell_markPath_mem l createEmptyBoard 1 WF_empty hnd hin i hi] at hv
    omega
  · rw [getCell_markPath_notMem l createEmptyBoard 1 WF_empty hin hp hmem,
      getCell_empty] at hv
    omega

lemma mem_get_valid_moves {r c : Int} {b : Board} {m : Pos}
    (h : m ∈ get_valid_moves r c b) :
    adjB (r, c) m = true ∧ inB m ∧ getCell b m = 0 := by
  simp only [get_valid_moves, List.mem_filter, List.mem_map] at h
  obtain ⟨⟨d, hd, rfl⟩, hv⟩ := h
  simp only [is_valid, Bool.and_eq_true, decide_eq_true_eq, beq_iff_eq] at hv
  obtain ⟨⟨⟨⟨h1, h2⟩, h3⟩, h4⟩, h5⟩ := hv
  refine ⟨?_, ⟨h1, h2, h3, h4⟩, h5⟩
  simp only [adjB, List.any_eq_true]
  exact ⟨d, hd, by simp⟩

lemma mem_sortMoves {b : Board} {l : List Pos} {m : Pos} :
    m ∈ sortMoves b l ↔ m ∈ l :=
  (List.perm_insertionSort _ l).mem_iff

lemma is_closed_tour_eq_adjB (s c : Pos) : is_closed_tour s c = adjB c s := rfl

set_option maxHeartbeats 1000000 in
lemma adjB_symm (p q : Pos) : adjB p q = adjB q p := by
  rcases p with ⟨pr, pc⟩
  rcases q with ⟨qr, qc⟩
  rw [Bool.eq_iff_iff]
  simp only [adjB, KNIGHT_MOVES, List.any_cons, List.any_nil, Bool.or_false,
    Bool.or_eq_true, Bool.and_eq_true, beq_iff_eq]
  omega

lemma filled_of_allVisited {b : Board} (hb : WF b) (h : allVisitedB b = true) :
    filled b = 64 := by
  unfold allVisitedB at h
  rw [List.all_eq_true] at h
  unfold filled
  have : ∀ n ∈ b.map (fun row => row.countP (fun x => !(x == 0))), n = 8 := by
    intro n hn
    rcases List.mem_map.1 hn with ⟨r, hr, rfl⟩
    have := h _ hr
    rw [← hb.2 _ hr]
    rw [List.countP_eq_length]
    rw [List.all_eq_true] at this
    exact this
  have := List.sum_eq_card_nsmul _ 8 this
  rw [this, List.length_map, hb.1]
  rfl


lemma PathState_init {start : Pos} (h : inB start) :
    PathState start (setCell createEmptyBoard start 1) start 1 := by
  refine ⟨[start], rfl, List.chain'_singleton _, List.nodup_singleton _, ?_, rfl,
    rfl, rfl⟩
  intro p hp
  rcases List.mem_singleton.1 hp with rfl
  exact h

lemma PathState_WF {start : Pos} {b : Board} {cur : Pos} {mc : Nat}
    (h : PathState start b cur mc) : WF b := by
  obtain ⟨l, -, -, -, -, -, -, rfl⟩ := h
  exact WF_markPath l _ 1 WF_empty

lemma PathState_step {start : Pos} {b : Board} {cur : Pos} {mc : Nat} {m : Pos}
    (h : PathState start b cur mc) (hm : m ∈ get_valid_moves cur.1 cur.2 b) :
    PathState start (setCell b m (mc + 1)) m (mc + 1) := by
  obtain ⟨l, hhead, hchain, hnd, hin, hlast, hlen, hb⟩ := h
  obtain ⟨hadj, hmB, hm0⟩ := mem_get_valid_moves hm
  have hmnl : m ∉ l := by
    intro hc
    rcases List.mem_iff_getElem.1 hc with ⟨i, hi, hieq⟩
    rw [hb, ← hieq,
      getCell_markPath_mem l createEmptyBoard 1 WF_empty hnd hin i hi] at hm0
    omega
  refine ⟨l ++ [m], ?_, ?_, ?_, ?_, ?_, ?_, ?_⟩
  · rw [List.head?_append, hhead]
    rfl
  · rw [List.chain'_append]
    refine ⟨hchain, List.chain'_singleton _, ?_⟩
    intro x hx y hy
    rw [hlast] at hx
    simp only [Option.mem_def, Option.some.injEq] at hx
    simp only [List.head?_cons, Option.mem_def, Option.some.injEq] at hy
    subst hx
    subst hy
    exact hadj
  · rw [List.nodup_append]
    refine ⟨hnd, List.nodup_singleton _, ?_⟩
    intro a ha hb2
    rcases List.mem_singleton.1 hb2 with rfl
    exact hmnl ha
  · intro p hp
    rcases List.mem_append.1 hp with hp | hp
    · exact hin p hp
    · rcases List.mem_singleton.1 hp with rfl
      exact hmB
  · rw [List.getLast?_concat]
  · simp [hlen]
  · rw [markPath_append l createEmptyBoard m 1, ← hb, hlen, Nat.add_comm 1 mc]

lemma StateInv_of_PathState {start : Pos} {b : Board} {cur : Pos} {mc : Nat}
    (h : PathState start b cur mc) : StateInv start b cur mc := by
  obtain ⟨l, hhead, hchain, hnd, hin, hlast, hlen, hb⟩ := h
  subst hb
  refine ⟨l, hhead, hchain, hnd, hin, hlast, hlen, rfl, ?_, ?_⟩
  · intro i hi
    have := getCell_markPath_mem l createEmptyBoard 1 WF_empty hnd hin i hi
    simp only [List.get_eq_getElem]
    rw [this]
    omega
  · intro p hpB h1 _
    rcases value_cell_of_markPath hnd hin hpB rfl h1 with ⟨i, hi, hip, -⟩
    exact hip ▸ List.getElem_mem hi

lemma tryMoves_false_restore {start : Pos} {fuel : Nat}
    (IH : ∀ (b : Board) (pos : Pos) (mc : Nat) (b' : Board), WF b → inB pos →
      getCell b pos = 0 → backtrack start fuel b pos mc = (false, b') → b' = b)
    {mc : Nat} :
    ∀ (ms : List Pos) (b b' : Board), WF b →
      (∀ m ∈ ms, inB m ∧ getCell b m = 0) →
      tryMoves (fun b2 m => backtrack start fuel b2 m (mc + 1)) ms b = (false, b') →
      b' = b
  | [], b, b', _, _, h => by
    simp only [tryMoves] at h
    injection h with _ h2
    exact h2.symm
  | m :: ms, b, b', hb, hmem, h => by
    simp only [tryMoves] at h
    cases hcall : backtrack start fuel b m (mc + 1) with
    | mk succ b2 =>
      rw [hcall] at h
      cases succ with
      | false =>
        have hb2 : b2 = b :=
          IH b m (mc + 1) b2 hb (hmem m (List.mem_cons_self _ _)).1
            (hmem m (List.mem_cons_self _ _)).2 hcall
        rw [hb2] at h
        exact tryMoves_false_restore IH ms b b' hb
          (fun x hx => hmem x (List.mem_cons_of_mem _ hx)) h
      | true =>
        exact absurd (congrArg Prod.fst h) (by simp)

/-- Rollback on failure: a failed `backtrack` call returns the board exactly
as it received it — every mark it made is undone. -/
theorem backtrack_false_restore (start : Pos) : ∀ (fuel : Nat) (b : Board)
    (pos : Pos) (mc : Nat) (b' : Board), WF b → inB pos → getCell b pos = 0 →
    backtrack start fuel b pos mc = (false, b') → b' = b := by
  intro fuel
  induction fuel with
  | zero =>
    intro b pos mc b' _ _ _ h
    simp only [backtrack] at h
    injection h with _ h2
    exact h2.symm
  | succ fuel IH =>
    intro b pos mc b' hb hp h0 h
    simp only [backtrack] at h
    by_cases hmc : mc = BOARD_SIZE * BOARD_SIZE
    · rw [if_pos hmc] at h
      by_cases hcl : is_closed_tour start pos = true
      · rw [if_pos hcl] at h
        exact absurd (congrArg Prod.fst h) (by simp)
      · rw [if_neg hcl] at h
        injection h with _ h2
        rw [← h2, setCell_setCell hb hp, setCell_zero_eq_self hb hp h0]
    · rw [if_neg hmc] at h
      cases htry : tryMoves (fun b2 m => backtrack start fuel b2 m (mc + 1))
          (sortMoves (setCell b pos mc)
            (get_valid_moves pos.1 pos.2 (setCell b pos mc)))
          (setCell b pos mc) with
      | mk succ b2 =>
        rw [htry] at h
        cases succ with
        | false =>
          injection h with _ h2
          have hb2 : b2 = setCell b pos mc := by
            refine tryMoves_false_restore IH _ _ _ (WF_setCell hb pos mc) ?_ htry
            intro m hm
            have hmv := mem_get_valid_moves (mem_sortMoves.1 hm)
            exact ⟨hmv.2.1, hmv.2.2⟩
          rw [← h2, hb2, setCell_setCell hb hp, setCell_zero_eq_self hb hp h0]
        | true =>
          exact absurd (congrArg Prod.fst h) (by simp)

lemma tryMoves_true_ex {start : Pos} {fuel : Nat} {mc : Nat}
    (IHtrue : ∀ (b : Board) (m : Pos) (b' : Board), WF b → inB m →
      getCell b m = 0 → backtrack start fuel b m (mc + 1) = (true, b') →
      ∃ l, GoodPath start b m (mc + 1) b' l) :
    ∀ (ms : List Pos) (b b' : Board), WF b →
      (∀ m ∈ ms, inB m ∧ getCell b m = 0) →
      tryMoves (fun b2 m => backtrack start fuel b2 m (mc + 1)) ms b = (true, b') →
      ∃ m l, m ∈ ms ∧ GoodPath start b m (mc + 1) b' l
  | [], b, b', _, _, h => by
    simp only [tryMoves] at h
    exact absurd (congrArg Prod.fst h) (by simp)
  | m :: ms, b, b', hb, hmem, h => by
    simp only [tryMoves] at h
    cases hcall : backtrack start fuel b m (mc + 1) with
    | mk succ b2 =>
      rw [hcall] at h
      cases succ with
      | true =>
        injection h with _ h2
        subst h2
        rcases IHtrue b m b2 hb (hmem m (List.mem_cons_self _ _)).1
          (hmem m (List.mem_cons_self _ _)).2 hcall with ⟨l, hl⟩
        exact ⟨m, l, List.mem_cons_self _ _, hl⟩
      | false =>
        have hb2 : b2 = b :=
          backtrack_false_restore start fuel b m (mc + 1) b2 hb
            (hmem m (List.mem_cons_self _ _)).1
            (hmem m (List.mem_cons_self _ _)).2 hcall
        rw [hb2] at h
        rcases tryMoves_true_ex IHtrue ms b b' hb
          (fun x hx => hmem x (List.mem_cons_of_mem _ hx)) h with ⟨m', l, hm', hl⟩
        exact ⟨m', l, List.mem_cons_of_mem _ hm', hl⟩

/-- A successful `backtrack` call extends the board it received with a fresh
knight path carrying the values `mc..64` and ending one knight move from the
start square. -/
theorem backtrack_true_path (start : Pos) : ∀ (fuel : Nat) (b : Board)
    (pos : Pos) (mc : Nat) (b' : Board), WF b → inB pos → getCell b pos = 0 →
    1 ≤ mc → mc ≤ 64 → 65 ≤ mc + fuel →
    backtrack start fuel b pos mc = (true, b') →
    ∃ l, GoodPath start b pos mc b' l := by
  intro fuel
  induction fuel with
  | zero =>
    intro b pos mc b' _ _ _ _ hmc hfuel _
    omega
  | succ fuel IH =>
    intro b pos mc b' hb hp h0 hone hmc hfuel h
    simp only [backtrack] at h
    by_cases hmceq : mc = BOARD_SIZE * BOARD_SIZE
    · rw [if_pos hmceq] at h
      have hmc64 : mc = 64 := hmceq
      by_cases hcl : is_closed_tour start pos = true
      · rw [if_pos hcl] at h
        injection h with _ h2
        refine ⟨[pos], rfl, List.chain'_singleton _, List.nodup_singleton _,
          ?_, ?_, ?_, ⟨pos, rfl, hcl⟩, ?_⟩
        · intro q hq
          rcases List.mem_singleton.1 hq with rfl
          exact hp
        · intro q hq
          rcases List.mem_singleton.1 hq with rfl
          exact h0
        · simp [hmc64]
        · rw [← h2]
          rfl
      · rw [if_neg hcl] at h
        exact absurd (congrArg Prod.fst h) (by simp)
    · rw [if_neg hmceq] at h
      have hmclt : mc < 64 := by
        have : mc ≠ 64 := hmceq
        omega
      cases htry : tryMoves (fun b2 m => backtrack start fuel b2 m (mc + 1))
          (sortMoves (setCell b pos mc)
            (get_valid_moves pos.1 pos.2 (setCell b pos mc)))
          (setCell b pos mc) with
      | mk succ b2 =>
        rw [htry] at h
        cases succ with
        | false => exact absurd (congrArg Prod.fst h) (by simp)
        | true =>
          injection h with _ h2
          subst h2
          have hb1 : WF (setCell b pos mc) := WF_setCell hb pos mc
          have hIHt : ∀ (b3 : Board) (m : Pos) (b3' : Board), WF b3 → inB m →
              getCell b3 m = 0 →
              backtrack start fuel b3 m (mc + 1) = (true, b3') →
              ∃ l, GoodPath start b3 m (mc + 1) b3' l :=
            fun b3 m b3' hb3 hm h0' hcall =>
              IH b3 m (mc + 1) b3' hb3 hm h0' (by omega) (by omega) (by omega) hcall
          have hmems : ∀ x ∈ sortMoves (setCell b pos mc)
              (get_valid_moves pos.1 pos.2 (setCell b pos mc)),
              inB x ∧ getCell (setCell b pos mc) x = 0 := by
            intro x hx
            have hmv := mem_get_valid_moves (mem_sortMoves.1 hx)
            exact ⟨hmv.2.1, hmv.2.2⟩
          rcases tryMoves_true_ex hIHt _ _ _ hb1 hmems htry with ⟨m, l, hmem, hl⟩
          obtain ⟨hhead, hchain, hnd, hinb, hzero, hlen, ⟨lastp, hlastp, hclosed⟩,
            hb'⟩ := hl
          have hmGood := mem_get_valid_moves (mem_sortMoves.1 hmem)
          have hposnotin : pos ∉ l := by
            intro hc
            have hz := hzero pos hc
            rw [getCell_setCell_same hb hp] at hz
            omega
          refine ⟨pos :: l, rfl, ?_, List.nodup_cons.2 ⟨hposnotin, hnd⟩, ?_, ?_,
            ?_, ⟨lastp, ?_, hclosed⟩, ?_⟩
          · rw [List.chain'_cons']
            refine ⟨?_, hchain⟩
            intro y hy
            rw [hhead] at hy
            simp only [Option.mem_def, Option.some.injEq] at hy
            subst hy
            exact hmGood.1
          · intro q hq
            rcases List.mem_cons.1 hq with rfl | hq
            · exact hp
            · exact hinb q hq
          · intro q hq
            rcases List.mem_cons.1 hq with rfl | hq
            · exact h0
            · have hzq := hzero q hq
              have hqB := hinb q hq
              have hne : pos ≠ q := by
                intro hc
                exact hposnotin (hc ▸ hq)
              rw [getCell_setCell_ne hb hp hqB hne] at hzq
              exact hzq
          · simp only [List.length_cons, hlen]
            omega
          · rcases l with - | ⟨x, xs⟩
            · simp at hhead
            · rw [List.getLast?_cons_cons]
              exact hlastp
          · exact hb'

lemma KTB_true_spec {start : Pos} {b : Board} (hs : inB start)
    (h : KnightsTourBacktracking start = (true, b)) :
    ∃ l : List Pos,
      l.head? = some start ∧ List.Chain' (fun p q => adjB p q = true) l ∧
      l.Nodup ∧ (∀ q ∈ l, inB q) ∧ l.length = 64 ∧
      b = markPath createEmptyBoard l 1 ∧
      ∃ lastp, l.getLast? = some lastp ∧ is_closed_tour start lastp = true := by
  unfold KnightsTourBacktracking at h
  rw [if_pos hs] at h
  rcases backtrack_true_path start (BOARD_SIZE * BOARD_SIZE) createEmptyBoard
    start 1 b WF_empty hs (getCell_empty start) le_rfl (by norm_num)
    (by norm_num [BOARD_SIZE]) h with ⟨l, hl⟩
  obtain ⟨hhead, hchain, hnd, hinb, _, hlen, ⟨lastp, hlastp, hclosed⟩, hb'⟩ := hl
  exact ⟨l, hhead, hchain, hnd, hinb, by omega, hb', lastp, hlastp, hclosed⟩

lemma KTB_false_spec {start : Pos} {b : Board}
    (h : KnightsTourBacktracking start = (false, b)) : b = createEmptyBoard := by
  unfold KnightsTourBacktracking at h
  by_cases hs : inB start
  · rw [if_pos hs] at h
    exact backtrack_false_restore start _ _ _ _ _ WF_empty hs
      (getCell_empty start) h
  · rw [if_neg hs] at h
    injection h with _ h2
    exact h2.symm

lemma filled_empty : filled createEmptyBoard = 0 := by decide

lemma PathState_filled {start : Pos} {b : Board} {cur : Pos} {mc : Nat}
    (h : PathState start b cur mc) : filled b = mc := by
  obtain ⟨l, -, -, hnd, hin, -, hlen, rfl⟩ := h
  rw [filled_markPath l createEmptyBoard 1 WF_empty hnd hin
    (fun q _ => getCell_empty q) le_rfl, filled_empty, hlen]
  omega

lemma PathState_cur_eq_getElem {start : Pos} {b : Board} {cur : Pos} {mc : Nat}
    (h : PathState start b cur mc) (h1 : 1 ≤ mc) :
    ∃ l : List Pos, ∃ hl : mc - 1 < l.length,
      l.Nodup ∧ (∀ p ∈ l, inB p) ∧ l.length = mc ∧
      b = markPath createEmptyBoard l 1 ∧ l[mc - 1] = cur := by
  obtain ⟨l, -, -, hnd, hin, hlast, hlen, rfl⟩ := h
  have hl : mc - 1 < l.length := by omega
  refine ⟨l, hl, hnd, hin, hlen, rfl, ?_⟩
  rw [List.getLast?_eq_getElem?] at hlast
  rw [hlen] at hlast
  rw [List.getElem?_eq_getElem (by omega : mc - 1 < l.length)] at hlast
  simpa using hlast

lemma PathState_cur_value {start : Pos} {b : Board} {cur : Pos} {mc : Nat}
    (h : PathState start b cur mc) (h1 : 1 ≤ mc) : getCell b cur = mc := by
  rcases PathState_cur_eq_getElem h h1 with ⟨l, hl, hnd, hin, hlen, hb, hcur⟩
  subst hb
  rw [← hcur,
    getCell_markPath_mem l createEmptyBoard 1 WF_empty hnd hin (mc - 1) hl]
  omega

lemma PathState_value_le {start : Pos} {b : Board} {cur : Pos} {mc : Nat}
    (h : PathState start b cur mc) {p : Pos} (hp : inB p) {v : Nat}
    (hv : getCell b p = v) (h1 : 1 ≤ v) : v ≤ mc ∧ (v = mc → p = cur) := by
  have h1mc : 1 ≤ mc := by
    obtain ⟨l, -, -, hnd, hin, -, hlen, rfl⟩ := h
    rcases value_cell_of_markPath hnd hin hp hv h1 with ⟨i, hi, -, -⟩
    omega
  rcases PathState_cur_eq_getElem h h1mc with ⟨l, hl, hnd, hin, hlen, hb, hcur⟩
  subst hb
  rcases value_cell_of_markPath hnd hin hp hv h1 with ⟨i, hi, hieq, hvi⟩
  constructor
  · omega
  · intro hveq
    have : i = mc - 1 := by omega
    subst this
    rw [← hieq, hcur]

/-- Postcondition of the Las Vegas loop: the returned board is a marked knight
path; the walk either completed all 64 squares (and the flag is exactly the
closure check at the final square) or stopped early at a square with no legal
moves, with the flag false and no rollback. -/
theorem lvLoop_post (start : Pos) : ∀ (fuel : Nat) (s : List Nat) (b : Board)
    (cur : Pos) (mc : Nat) (succ : Bool) (b2 : Board) (s2 : List Nat),
    PathState start b cur mc → 1 ≤ mc → mc ≤ 64 → 65 ≤ mc + fuel →
    lvLoop start fuel s b cur mc = ((succ, b2), s2) →
    ∃ cur2 mc2, PathState start b2 cur2 mc2 ∧ 1 ≤ mc2 ∧ mc2 ≤ 64 ∧
      ((mc2 = 64 ∧ succ = is_closed_tour start cur2) ∨
       (mc2 < 64 ∧ succ = false ∧ get_valid_moves cur2.1 cur2.2 b2 = [])) := by
  intro fuel
  induction fuel with
  | zero =>
    intro s b cur mc succ b2 s2 _ _ hmc hfuel _
    omega
  | succ fuel IH =>
    intro s b cur mc succ b2 s2 hps h1 hmc hfuel h
    simp only [lvLoop] at h
    by_cases hlt : mc < BOARD_SIZE * BOARD_SIZE
    · rw [if_pos hlt] at h
      have hlt64 : mc < 64 := hlt
      by_cases hvm : (get_valid_moves cur.1 cur.2 b).length = 0
      · rw [if_pos hvm] at h
        injection h with hA hB
        injection hA with hsucc hboard
        refine ⟨cur, mc, hboard ▸ hps, h1, hmc, Or.inr ⟨hlt64, hsucc.symm, ?_⟩⟩
        rw [← hboard]
        exact List.length_eq_zero.1 hvm
      · rw [if_neg hvm] at h
        have hlen0 : 0 < (get_valid_moves cur.1 cur.2 b).length :=
          Nat.pos_of_ne_zero hvm
        have hMmem : (get_valid_moves cur.1 cur.2 b).getD
            (s.headD 0 % (get_valid_moves cur.1 cur.2 b).length) (0, 0) ∈
            get_valid_moves cur.1 cur.2 b := by
          rw [List.getD_eq_getElem?_getD,
            List.getElem?_eq_getElem (Nat.mod_lt _ hlen0)]
          exact List.getElem_mem _
        have hps2 := PathState_step hps hMmem
        exact IH s.tail _ _ (mc + 1) succ b2 s2 hps2 (by omega) (by omega)
          (by omega) h
    · rw [if_neg hlt] at h
      have hmc64 : mc = 64 := by
        have hlt64 : ¬ mc < 64 := hlt
        omega
      injection h with hA hB
      injection hA with hsucc hboard
      exact ⟨cur, mc, hboard ▸ hps, h1, hmc, Or.inl ⟨hmc64, hsucc.symm⟩⟩

lemma KTLV_run_spec {start : Pos} (hs : inB start) (s : List Nat) :
    ∃ cur2 mc2,
      PathState start (KnightsTourLasVegas start s).1.2 cur2 mc2 ∧
      1 ≤ mc2 ∧ mc2 ≤ 64 ∧
      ((mc2 = 64 ∧
          (KnightsTourLasVegas start s).1.1 = is_closed_tour start cur2) ∨
       (mc2 < 64 ∧ (KnightsTourLasVegas start s).1.1 = false ∧
          get_valid_moves cur2.1 cur2.2 (KnightsTourLasVegas start s).1.2 = [])) := by
  have hinit := PathState_init hs
  unfold KnightsTourLasVegas
  rw [if_pos hs]
  rcases hrun : lvLoop start (BOARD_SIZE * BOARD_SIZE) s
      (setCell createEmptyBoard start 1) start 1 with ⟨⟨succ, b2⟩, s2⟩
  exact lvLoop_post start (BOARD_SIZE * BOARD_SIZE) s
    (setCell createEmptyBoard start 1) start 1 succ b2 s2 hinit le_rfl
    (by norm_num) (by norm_num [BOARD_SIZE]) hrun

lemma PathState_cur_inB {start : Pos} {b : Board} {cur : Pos} {mc : Nat}
    (h : PathState start b cur mc) (h1 : 1 ≤ mc) : inB cur := by
  rcases PathState_cur_eq_getElem h h1 with ⟨l, hl, -, hin, -, -, hcur⟩
  exact hcur ▸ hin _ (List.getElem_mem hl)

lemma count_moves_eq_warnKey (r c : Int) (b : Board) :
    count_moves r c b = warnKey b (r, c) := by
  unfold count_moves warnKey get_valid_moves
  rw [← List.countP_eq_length_filter, List.countP_map]
  rfl

lemma orderedInsert_congr {α : Type _} {r1 r2 : α → α → Prop} [DecidableRel r1]
    [DecidableRel r2] (h : ∀ a b, r1 a b ↔ r2 a b) :
    ∀ (l : List α) (a : α), List.orderedInsert r1 a l = List.orderedInsert r2 a l
  | [], _ => rfl
  | b :: l, a => by
    simp only [List.orderedInsert]
    by_cases hr : r1 a b
    · rw [if_pos hr, if_pos ((h a b).1 hr)]
    · rw [if_neg hr, if_neg (fun hc => hr ((h a b).2 hc)),
        orderedInsert_congr h l a]

lemma insertionSort_congr {α : Type _} {r1 r2 : α → α → Prop} [DecidableRel r1]
    [DecidableRel r2] (h : ∀ a b, r1 a b ↔ r2 a b) :
    ∀ l : List α, List.insertionSort r1 l = List.insertionSort r2 l
  | [] => rfl
  | a :: l => by
    simp only [List.insertionSort]
    rw [insertionSort_congr h l, orderedInsert_congr h _ a]

lemma sortMoves2_eq (b : Board) (l : List Pos) : sortMoves2 b l = sortMoves b l := by
  unfold sortMoves2 sortMoves
  refine insertionSort_congr (fun p q => ?_) l
  rw [count_moves_eq_warnKey p.1 p.2 b, count_moves_eq_warnKey q.1 q.2 b]

lemma can_return_eq_is_closed (cur start : Pos) :
    can_return_to_start cur start = is_closed_tour start cur := rfl

lemma backtrack2_eq_backtrack (start : Pos) : ∀ (fuel : Nat) (b : Board)
    (pos : Pos) (mc : Nat),
    backtrack2 start fuel b pos mc = backtrack start fuel b pos mc := by
  intro fuel
  induction fuel with
  | zero => intro b pos mc; rfl
  | succ fuel IH =>
    intro b pos mc
    simp only [backtrack2, backtrack]
    rw [sortMoves2_eq]
    have hfun : (fun b2 m => backtrack2 start fuel b2 m (mc + 1)) =
        (fun b2 m => backtrack start fuel b2 m (mc + 1)) := by
      funext b2 m
      exact IH b2 m (mc + 1)
    rw [hfun]
    rfl

lemma lvLoop_stream_prefix (start : Pos) : ∀ (fuel : Nat) (s t : List Nat)
    (b : Board) (cur : Pos) (mc : Nat),
    s.take fuel = t.take fuel →
    (lvLoop start fuel s b cur mc).1 = (lvLoop start fuel t b cur mc).1 := by
  intro fuel
  induction fuel with
  | zero => intro s t b cur mc _; rfl
  | succ fuel IH =>
    intro s t b cur mc htake
    simp only [lvLoop]
    by_cases hlt : mc < BOARD_SIZE * BOARD_SIZE
    · rw [if_pos hlt, if_pos hlt]
      by_cases hvm : (get_valid_moves cur.1 cur.2 b).length = 0
      · rw [if_pos hvm, if_pos hvm]
      · rw [if_neg hvm, if_neg hvm]
        rcases s with - | ⟨a, s'⟩ <;> rcases t with - | ⟨a', t'⟩
        · exact IH [] [] _ _ _ rfl
        · simp only [List.take_succ_cons, List.take_nil] at htake
          exact absurd htake (by simp)
        · simp only [List.take_succ_cons, List.take_nil] at htake
          exact absurd htake (by simp)
        · simp only [List.take_succ_cons, List.cons.injEq] at htake
          rcases htake with ⟨rfl, htail⟩
          exact IH s' t' _ _ _ htail
    · rw [if_neg hlt, if_neg hlt]

/-- C1: for both solvers and every in-bounds start, the returned success flag
is true exactly when every square of the returned board is visited and the
square holding the final move number 64 is one knight move from the start. -/
theorem success_iff_visited_and_closed : ∀ start : Pos, inB start →
    ((KnightsTourBacktracking start).1 = true ↔
      (allVisitedB (KnightsTourBacktracking start).2 = true ∧
        ∃ p, inB p ∧ getCell (KnightsTourBacktracking start).2 p = 64 ∧
          is_closed_tour start p = true)) ∧
    (∀ s : List Nat, (KnightsTourLasVegas start s).1.1 = true ↔
      (allVisitedB (KnightsTourLasVegas start s).1.2 = true ∧
        ∃ p, inB p ∧ getCell (KnightsTourLasVegas start s).1.2 p = 64 ∧
          is_closed_tour start p = true)) := by
  intro start hs
  constructor
  · rcases hres : KnightsTourBacktracking start with ⟨succ, b⟩
    cases succ with
    | true =>
      rcases KTB_true_spec hs hres with ⟨l, hhead, hchain, hnd, hinb, hlen, hb,
        lastp, hlastp, hclosed⟩
      have hps : PathState start b lastp 64 :=
        ⟨l, hhead, hchain, hnd, hinb, hlastp, hlen, hb⟩
      have hall : allVisitedB b = true :=
        allVisited_of_filled (PathState_WF hps) (PathState_filled hps)
      have hval : getCell b lastp = 64 := PathState_cur_value hps (by omega)
      have hlastB : inB lastp := PathState_cur_inB hps (by omega)
      exact ⟨fun _ => ⟨hall, lastp, hlastB, hval, hclosed⟩, fun _ => rfl⟩
    | false =>
      have hbe := KTB_false_spec hres
      subst hbe
      constructor
      · intro hcontra
        exact absurd hcontra (by decide)
      · rintro ⟨hall, -⟩
        exact absurd hall (by decide)
  · intro s
    rcases KTLV_run_spec hs s with ⟨cur2, mc2, hps, h1, hle, hcase⟩
    rcases hcase with ⟨hmc64, hflag⟩ | ⟨hlt, hflag, hstuck⟩
    · subst hmc64
      have hall : allVisitedB (KnightsTourLasVegas start s).1.2 = true :=
        allVisited_of_filled (PathState_WF hps) (PathState_filled hps)
      have hval := PathState_cur_value hps (by omega)
      have hcurB : inB cur2 := PathState_cur_inB hps (by omega)
      constructor
      · intro htrue
        rw [htrue] at hflag
        exact ⟨hall, cur2, hcurB, hval, hflag.symm⟩
      · rintro ⟨-, p, hpB, hpv, hpcl⟩
        have huniq := PathState_value_le hps hpB hpv (by omega)
        have hpc : p = cur2 := huniq.2 rfl
        rw [hflag]
        exact hpc ▸ hpcl
    · constructor
      · intro htrue
        rw [hflag] at htrue
        exact absurd htrue (by decide)
      · rintro ⟨hall, -⟩
        have hfill := PathState_filled hps
        have h64 := filled_of_allVisited (PathState_WF hps) hall
        omega

/-- C2: a successful backtracking board holds each value of `[1, 64]` in
exactly one in-bounds cell, and cells holding consecutive values are one
knight move apart. -/
theorem backtracking_success_board_is_closed_tour :
    ∀ (start : Pos) (b : Board), inB start →
    KnightsTourBacktracking start = (true, b) →
    (∀ k, 1 ≤ k → k ≤ 64 → ∃! p : Pos, inB p ∧ getCell b p = k) ∧
    (∀ (k : Nat) (p q : Pos), 1 ≤ k → k ≤ 63 → inB p → inB q →
      getCell b p = k → getCell b q = k + 1 → adjB p q = true) := by
  intro start b hs h
  rcases KTB_true_spec hs h with ⟨l, hhead, hchain, hnd, hinb, hlen, hb,
    lastp, hlastp, hclosed⟩
  subst hb
  constructor
  · intro k h1 h64
    have hk1 : k - 1 < l.length := by omega
    refine ⟨l[k - 1], ⟨hinb _ (List.getElem_mem hk1), ?_⟩, ?_⟩
    · rw [getCell_markPath_mem l createEmptyBoard 1 WF_empty hnd hinb
        (k - 1) hk1]
      omega
    · rintro p ⟨hpB, hpv⟩
      rcases value_cell_of_markPath hnd hinb hpB hpv (by omega) with
        ⟨i, hi, hieq, hvi⟩
      have hik : i = k - 1 := by omega
      subst hik
      exact hieq.symm
  · intro k p q h1 h63 hpB hqB hpv hqv
    rcases value_cell_of_markPath hnd hinb hpB hpv (by omega) with
      ⟨i, hi, hieq, hvi⟩
    rcases value_cell_of_markPath hnd hinb hqB hqv (by omega) with
      ⟨j, hj, hjeq, hvj⟩
    have hchain' := List.chain'_iff_get.1 hchain i (by omega)
    simp only [List.get_eq_getElem] at hchain'
    have hij : i + 1 = j := by omega
    rw [← hieq, ← hjeq]
    simp only [← hij]
    exact hchain'

/-- C3: at every state reached by either search (each recursive call of the
backtracking solver after marking, and each Las Vegas loop iteration for any
random choice), the cells valued in `[1, move_count]` form exactly one
self-avoiding knight path starting at the start square, without duplicate
values. -/
theorem search_states_invariant :
    ∀ (start : Pos) (b : Board) (cur : Pos) (mc : Nat),
    (BTReach start b cur mc ∨ LVReach start b cur mc) →
    StateInv start b cur mc := by
  intro start b cur mc h
  refine StateInv_of_PathState ?_
  rcases h with h | h
  · induction h with
    | init hs => exact PathState_init hs
    | step hr hlt hm ih => exact PathState_step ih (mem_sortMoves.1 hm)
  · induction h with
    | init hs => exact PathState_init hs
    | step hr hlt hm ih => exact PathState_step ih hm

/-- C4: a failed `backtrack` call hands back exactly the board it received
(all markings rolled back to the root), and in particular a failed
`KnightsTourBacktracking` run returns the all-zero board. -/
theorem failure_rolls_back_to_input_board :
    (∀ (start : Pos) (fuel : Nat) (b : Board) (pos : Pos) (mc : Nat)
      (b' : Board), WF b → inB pos → getCell b pos = 0 →
      backtrack start fuel b pos mc = (false, b') → b' = b) ∧
    (∀ (start : Pos) (b : Board), KnightsTourBacktracking start = (false, b) →
      b = createEmptyBoard) :=
  ⟨fun start fuel b pos mc b' hb hp h0 h =>
    backtrack_false_restore start fuel b pos mc b' hb hp h0 h,
   fun _ _ h => KTB_false_spec h⟩

/-- C5: when the Las Vegas walk gets stuck before visiting all 64 squares, it
reports failure and the returned board keeps every move made: it is exactly
the marked path walked so far, whose final square has no legal moves. -/
theorem lasVegas_stuck_no_rollback : ∀ (start : Pos) (s : List Nat), inB start →
    allVisitedB (KnightsTourLasVegas start s).1.2 = false →
    (KnightsTourLasVegas start s).1.1 = false ∧
    ∃ (l : List Pos) (cur : Pos),
      l.head? = some start ∧ List.Chain' (fun p q => adjB p q = true) l ∧
      l.Nodup ∧ (∀ p ∈ l, inB p) ∧ l.getLast? = some cur ∧ l.length < 64 ∧
      get_valid_moves cur.1 cur.2 (KnightsTourLasVegas start s).1.2 = [] ∧
      (KnightsTourLasVegas start s).1.2 = markPath createEmptyBoard l 1 := by
  intro start s hs hnotall
  rcases KTLV_run_spec hs s with ⟨cur2, mc2, hps, h1, hle, hcase⟩
  rcases hcase with ⟨hmc64, hflag⟩ | ⟨hlt, hflag, hstuck⟩
  · exfalso
    have hall := allVisited_of_filled (PathState_WF hps)
      (by rw [PathState_filled hps, hmc64])
    rw [hall] at hnotall
    exact absurd hnotall (by decide)
  · refine ⟨hflag, ?_⟩
    obtain ⟨l, hhead, hchain, hnd, hin, hlast, hlen, hb⟩ := hps
    exact ⟨l, cur2, hhead, hchain, hnd, hin, hlast, by omega, hstuck, hb⟩

/-- C6: an out-of-bounds start makes both solvers return `(false, all-zero
board)` immediately, with no cell marked and no error. -/
theorem out_of_bounds_start_rejected : ∀ (start : Pos) (s : List Nat),
    ¬ inB start →
    KnightsTourBacktracking start = (false, createEmptyBoard) ∧
    (KnightsTourLasVegas start s).1 = (false, createEmptyBoard) := by
  intro start s hs
  constructor
  · unfold KnightsTourBacktracking
    rw [if_neg hs]
  · unfold KnightsTourLasVegas
    rw [if_neg hs]

/-- C7: the Warnsdorff ordering of the candidate list is a permutation (no
candidate is pruned), is sorted ascending by the onward-move count, and is
stable: candidates with equal counts keep their order from the move table. -/
theorem warnsdorff_ordering_sorted_stable_complete : ∀ (b : Board) (pos : Pos),
    (sortMoves b (get_valid_moves pos.1 pos.2 b)).Perm
      (get_valid_moves pos.1 pos.2 b) ∧
    (sortMoves b (get_valid_moves pos.1 pos.2 b)).Pairwise
      (fun p q => warnKey b p ≤ warnKey b q) ∧
    (∀ p q : Pos, warnKey b p = warnKey b q →
      [p, q].Sublist (get_valid_moves pos.1 pos.2 b) →
      [p, q].Sublist (sortMoves b (get_valid_moves pos.1 pos.2 b))) := by
  intro b pos
  refine ⟨List.perm_insertionSort _ _, ?_, ?_⟩
  · haveI : IsTotal Pos (fun p q => warnKey b p ≤ warnKey b q) :=
      ⟨fun _ _ => Nat.le_total _ _⟩
    haveI : IsTrans Pos (fun p q => warnKey b p ≤ warnKey b q) :=
      ⟨fun _ _ _ h1 h2 => le_trans h1 h2⟩
    exact List.sorted_insertionSort _ _
  · intro p q heq hsub
    exact List.pair_sublist_insertionSort (le_of_eq heq) hsub

/-- C8 counterexample: the Las Vegas solver draws from the process-global
generator, modelled as a threaded stream; two successive calls with the same
start after one seeding consume different stream portions and return
different results. -/
theorem lasVegas_repeated_calls_differ :
    (KnightsTourLasVegas (0, 0) [1]).1 ≠
      (KnightsTourLasVegas (0, 0) ((KnightsTourLasVegas (0, 0) [1]).2)).1 := by
  decide

/-- C8 amended: with the global generator's draw stream explicit, the
`(success, board)` result of one Las Vegas call is a function of the start
position and the first 64 drawn values only, so re-seeding the generator
identically before each call reproduces the result. -/
theorem lasVegas_result_determined_by_draw_prefix :
    ∀ (start : Pos) (s t : List Nat), s.take 64 = t.take 64 →
    (KnightsTourLasVegas start s).1 = (KnightsTourLasVegas start t).1 := by
  intro start s t h
  unfold KnightsTourLasVegas
  by_cases hs : inB start
  · rw [if_pos hs, if_pos hs]
    exact lvLoop_stream_prefix start (BOARD_SIZE * BOARD_SIZE) s t _ _ _ h
  · rw [if_neg hs, if_neg hs]

set_option maxRecDepth 100000 in
/-- C9: from start `(0, 0)` the backtracking solver terminates with success;
cell `(0, 0)` holds move number 1 and the cell holding 64 is one knight move
from `(0, 0)`. -/
theorem corner_start_closed_tour_found :
    (KnightsTourBacktracking (0, 0)).1 = true ∧
    getCell (KnightsTourBacktracking (0, 0)).2 (0, 0) = 1 ∧
    ∃ p, inB p ∧ getCell (KnightsTourBacktracking (0, 0)).2 p = 64 ∧
      is_closed_tour (0, 0) p = true := by
  have h : KnightsTourBacktracking (0, 0) = (true, tourBoard) := by decide
  rw [h]
  exact ⟨rfl, by decide, (1, 2), by decide, by decide, by decide⟩

/-- C10: the two backtracking implementations agree on every start position,
and the knight-move closure predicate is symmetric in its two arguments. -/
theorem two_backtracking_solvers_equivalent :
    (∀ r c : Int, knights_tour r c = KnightsTourBacktracking (r, c)) ∧
    (∀ p q : Pos, is_closed_tour p q = is_closed_tour q p) := by
  constructor
  · intro r c
    unfold knights_tour KnightsTourBacktracking
    by_cases hs : inB ((r : Int), (c : Int))
    · rw [if_pos hs, if_pos hs, backtrack2_eq_backtrack]
    · rw [if_neg hs, if_neg hs]
  · intro p q
    rw [is_closed_tour_eq_adjB, is_closed_tour_eq_adjB, adjB_symm]

/-- Witness for C1: the hypotheses hold at the concrete start `(0, 0)`. -/
theorem success_iff_visited_and_closed_witness :
    inB ((0 : Int), (0 : Int)) ∧
    (((KnightsTourBacktracking (0, 0)).1 = true ↔
      (allVisitedB (KnightsTourBacktracking (0, 0)).2 = true ∧
        ∃ p, inB p ∧ getCell (KnightsTourBacktracking (0, 0)).2 p = 64 ∧
          is_closed_tour (0, 0) p = true)) ∧
     (∀ s : List Nat, (KnightsTourLasVegas (0, 0) s).1.1 = true ↔
       (allVisitedB (KnightsTourLasVegas (0, 0) s).1.2 = true ∧
         ∃ p, inB p ∧ getCell (KnightsTourLasVegas (0, 0) s).1.2 p = 64 ∧
           is_closed_tour (0, 0) p = true))) :=
  ⟨by decide, success_iff_visited_and_closed (0, 0) (by decide)⟩

set_option maxRecDepth 100000 in
/-- Witness for C2: the hypotheses hold at start `(0, 0)`, whose successful
run returns `tourBoard`. -/
theorem backtracking_success_board_witness :
    inB ((0 : Int), (0 : Int)) ∧
    KnightsTourBacktracking (0, 0) = (true, tourBoard) ∧
    ((∀ k, 1 ≤ k → k ≤ 64 → ∃! p : Pos, inB p ∧ getCell tourBoard p = k) ∧
     (∀ (k : Nat) (p q : Pos), 1 ≤ k → k ≤ 63 → inB p → inB q →
       getCell tourBoard p = k → getCell tourBoard q = k + 1 →
       adjB p q = true)) := by
  have h : KnightsTourBacktracking (0, 0) = (true, tourBoard) := by decide
  exact ⟨by decide, h,
    backtracking_success_board_is_closed_tour (0, 0) tourBoard (by decide) h⟩

/-- Witness for C3: the invariant at the initial backtracking state from
`(0, 0)`, reached by `BTReach.init`. -/
theorem search_states_invariant_witness :
    StateInv (0, 0) (setCell createEmptyBoard (0, 0) 1) (0, 0) 1 :=
  search_states_invariant (0, 0) (setCell createEmptyBoard (0, 0) 1) (0, 0) 1
    (Or.inl (BTReach.init (by decide)))

/-- Witness for C4: a concrete failing `backtrack` call (board full except
the current square, closure check failing) rolls back, and a concrete failed
top-level run returns the empty board. -/
theorem failure_rolls_back_witness :
    WF nearFullBoard ∧ inB ((0 : Int), (0 : Int)) ∧
    getCell nearFullBoard (0, 0) = 0 ∧
    backtrack (4, 4) 1 nearFullBoard (0, 0) 64 = (false, nearFullBoard) ∧
    nearFullBoard = nearFullBoard ∧
    KnightsTourBacktracking (-1, 0) = (false, createEmptyBoard) ∧
    createEmptyBoard = createEmptyBoard := by
  have hrun : backtrack (4, 4) 1 nearFullBoard (0, 0) 64 =
      (false, nearFullBoard) := by decide
  have hktb : KnightsTourBacktracking (-1, 0) = (false, createEmptyBoard) := by
    decide
  have hwf : WF nearFullBoard := ⟨rfl, by decide⟩
  refine ⟨hwf, by decide, by decide, hrun, ?_, hktb, ?_⟩
  · exact failure_rolls_back_to_input_board.1 (4, 4) 1 nearFullBoard (0, 0) 64
      nearFullBoard hwf (by decide) (by decide) hrun
  · exact failure_rolls_back_to_input_board.2 (-1, 0) createEmptyBoard hktb

/-- Witness for C5: the all-zero draw stream gets the walk from `(0, 0)`
stuck before completion. -/
theorem lasVegas_stuck_no_rollback_witness :
    inB ((0 : Int), (0 : Int)) ∧
    allVisitedB (KnightsTourLasVegas (0, 0) []).1.2 = false ∧
    ((KnightsTourLasVegas (0, 0) []).1.1 = false ∧
     ∃ (l : List Pos) (cur : Pos),
       l.head? = some (0, 0) ∧ List.Chain' (fun p q => adjB p q = true) l ∧
       l.Nodup ∧ (∀ p ∈ l, inB p) ∧ l.getLast? = some cur ∧ l.length < 64 ∧
       get_valid_moves cur.1 cur.2 (KnightsTourLasVegas (0, 0) []).1.2 = [] ∧
       (KnightsTourLasVegas (0, 0) []).1.2 = markPath createEmptyBoard l 1) :=
  ⟨by decide, by decide,
    lasVegas_stuck_no_rollback (0, 0) [] (by decide) (by decide)⟩

/-- Witness for C6 at the three boundary starts named by the specification. -/
theorem out_of_bounds_start_rejected_witness :
    (¬ inB ((-1 : Int), (0 : Int)) ∧
      KnightsTourBacktracking (-1, 0) = (false, createEmptyBoard) ∧
      (KnightsTourLasVegas (-1, 0) []).1 = (false, createEmptyBoard)) ∧
    (¬ inB ((8 : Int), (0 : Int)) ∧
      KnightsTourBacktracking (8, 0) = (false, createEmptyBoard) ∧
      (KnightsTourLasVegas (8, 0) []).1 = (false, createEmptyBoard)) ∧
    (¬ inB ((0 : Int), (8 : Int)) ∧
      KnightsTourBacktracking (0, 8) = (false, createEmptyBoard) ∧
      (KnightsTourLasVegas (0, 8) []).1 = (false, createEmptyBoard)) :=
  ⟨⟨by decide, out_of_bounds_start_rejected (-1, 0) [] (by decide)⟩,
   ⟨by decide, out_of_bounds_start_rejected (8, 0) [] (by decide)⟩,
   ⟨by decide, out_of_bounds_start_rejected (0, 8) [] (by decide)⟩⟩

/-- Witness for C7: from `(0, 0)` on the empty board the two candidates have
equal onward counts and the stable sort keeps their table order. -/
theorem warnsdorff_ordering_witness :
    warnKey createEmptyBoard (2, 1) = warnKey createEmptyBoard (1, 2) ∧
    [((2 : Int), (1 : Int)), ((1 : Int), (2 : Int))].Sublist
      (get_valid_moves 0 0 createEmptyBoard) ∧
    [((2 : Int), (1 : Int)), ((1 : Int), (2 : Int))].Sublist
      (sortMoves createEmptyBoard (get_valid_moves 0 0 createEmptyBoard)) := by
  have hgv : get_valid_moves 0 0 createEmptyBoard = [(2, 1), (1, 2)] := by
    decide
  have hsub : [((2 : Int), (1 : Int)), ((1 : Int), (2 : Int))].Sublist
      (get_valid_moves 0 0 createEmptyBoard) := by
    rw [hgv]
  refine ⟨by decide, hsub, ?_⟩
  exact (warnsdorff_ordering_sorted_stable_complete createEmptyBoard (0, 0)).2.2
    (2, 1) (1, 2) (by decide) hsub

/-- Witness for the amended C8: two streams agreeing on their first 64 draws
give identical results. -/
theorem lasVegas_draw_prefix_witness :
    (List.replicate 64 0 ++ [7] : List Nat).take 64 =
      (List.replicate 64 0 ++ [9] : List Nat).take 64 ∧
    (KnightsTourLasVegas (0, 0) (List.replicate 64 0 ++ [7])).1 =
      (KnightsTourLasVegas (0, 0) (List.replicate 64 0 ++ [9])).1 :=
  ⟨by decide, lasVegas_result_determined_by_draw_prefix (0, 0) _ _ (by decide)⟩
